import Mathlib

/-
Shallow embedding of the log-structured key-value store in
jdockerty/log-structured-db-engine (src/db.go and its duplicated library
variants).  The engine keeps an append-only text log of records
"id,value\n", an in-memory hash index mapping ids to byte offsets, and a
JSON snapshot of that index persisted after every write.

Modelling conventions:
  * File contents are lists of characters (`Str`); byte offsets are `Nat`
    (Go's int64 never goes negative here, appends only grow the file and
    no overflow is reachable at file sizes the type can denote).
  * `bufio.Scanner` with the default `ScanLines` split function is modelled
    by `scanTokens`: tokens are maximal newline-free segments, a single
    trailing carriage return is dropped from each token, and a final empty
    segment after a terminating newline yields no token.
  * The Go map `hashIndex` is modelled as an association list with
    replace-on-insert semantics (`idxInsert` / `idxLookup`).
  * `encoding/json` on `map[string]int64` is modelled by `encodeIndex`
    (object with string keys and decimal integer values, newline-terminated,
    as `json.Encoder.Encode` emits) and by the one-value decoder
    `parseObj` / `loadIndex`; `json.Decoder.Decode` reads a single JSON
    value and leaves any trailing bytes of the stream unread, which the
    decoder reproduces by returning the unconsumed remainder.  The model's
    string escaping covers the quote and backslash characters; Go
    additionally escapes control and HTML characters, which does not change
    any of the round-trip behaviour proved here.  Entry order of the
    encoded object is the list order (Go sorts map keys; either way the
    encoded object carries exactly the mapping's entries).
  * Each CLI run opens the files fresh, so both `Get` paths read the log
    from byte 0; `Set` appends at the end (O_APPEND) and overwrites the
    snapshot from byte 0 without truncating (`overwriteFromStart`).
-/

namespace LogDB

abbrev Str := List Char

/-- Character test used for the scanner's line splitting. -/
def notNL (c : Char) : Bool := c != '\n'

/-- Character test for the record separator, `strings.Split(s, ",")[0]`. -/
def notComma (c : Char) : Bool := c != ','

/-- `bufio.dropCR`: drop one trailing carriage return from a scanned line. -/
def dropCR (s : Str) : Str :=
  if s.getLast? = some '\r' then s.dropLast else s

/-- Worker for `scanTokens`: `acc` holds the current (reversed) partial
line.  At a newline the accumulated segment is emitted (CR-stripped); at
end of input a nonempty partial segment is emitted, an empty one is not
(`bufio.ScanLines` returns no final empty token). -/
def scanTokensAux : Str → Str → List Str
  | [], acc => if acc = [] then [] else [dropCR acc.reverse]
  | c :: rest, acc =>
    if c = '\n' then dropCR acc.reverse :: scanTokensAux rest []
    else scanTokensAux rest (c :: acc)

/-- All tokens produced by a `bufio.Scanner` over the given content. -/
def scanTokens (s : Str) : List Str := scanTokensAux s []

/-- `strings.Split(line, ",")[0]`: the text before the first separator,
or the whole string when no separator occurs. -/
def entryId (e : Str) : Str := e.takeWhile notComma

/-- src/db.go `scanFullDB`: fold over every scanned line in file order,
keeping the last line whose id equals the requested id; the final
`if entry == ""` in the source returns `entry` in both branches and is
collapsed here. -/
def scanFullDB (lines : List Str) (id : Str) : Str :=
  lines.foldl (fun entry line => if entryId line = id then line else entry) []

/-- The raw text from byte `off` up to the next newline (or end of file). -/
def lineAt (log : Str) (off : Nat) : Str :=
  (log.drop off).takeWhile notNL

/-- `db.Seek(off, io.SeekStart)` followed by one `Scan`/`Text` pair:
the next scanner token starting at byte `off` (empty at or past EOF). -/
def readLineAt (log : Str) (off : Nat) : Str :=
  dropCR (lineAt log off)

/-- The in-memory hash index `map[string]int64`, as an association list. -/
abbrev Index := List (Str × Nat)

/-- Go map read `hashIndex[id]` with its ok-flag, as an `Option`. -/
def idxLookup : Index → Str → Option Nat
  | [], _ => none
  | (k, v) :: rest, key => if key = k then some v else idxLookup rest key

/-- Go map write `hashIndex[id] = off`: replace the binding when the key
is present, append it otherwise. -/
def idxInsert : Index → Str → Nat → Index
  | [], k, v => [(k, v)]
  | (k2, v2) :: rest, k, v =>
    if k = k2 then (k, v) :: rest else (k2, v2) :: idxInsert rest k v

/-- Error taxonomy of the engine: the CLI's rejection of a separator-less
entry, a failed snapshot decode at startup, and stream failures. -/
inductive DBErr
  | InvalidEntryFormat
  | CorruptSnapshot
  | IoError
deriving DecidableEq, Repr

/-- The store: contents of log-structure.db, the in-memory hash index and
the contents of hash-index.db. -/
structure DBState where
  log : Str
  hashIndex : Index
  snapshot : Str
deriving DecidableEq, Repr

/-- A store as the program creates it on first run: both files empty,
index empty. -/
def emptyStore : DBState := { log := [], hashIndex := [], snapshot := [] }

/- ---------- JSON snapshot codec ---------- -/

def digitChar (d : Nat) : Char := Char.ofNat (48 + d)

def isDigitCh (c : Char) : Bool := 48 ≤ c.toNat && c.toNat ≤ 57

/-- Decimal digits of `n`, most significant first; the fuel only bounds
the recursion and `n + 1` units always suffice (`natToStrAux_fuel`). -/
def natToStrAux : Nat → Nat → Str → Str
  | 0, _, acc => acc
  | f + 1, n, acc =>
    if n < 10 then digitChar n :: acc
    else natToStrAux f (n / 10) (digitChar (n % 10) :: acc)

def natToStr (n : Nat) : Str := natToStrAux (n + 1) n []

/-- Value of a digit string, most significant first. -/
def strToNat (s : Str) : Nat :=
  s.foldl (fun a c => a * 10 + (c.toNat - 48)) 0

/-- JSON string escaping (quote and backslash). -/
def escChars : Str → Str
  | [] => []
  | c :: cs =>
    if c = '"' ∨ c = '\\' then '\\' :: c :: escChars cs else c :: escChars cs

/-- One `"key":value` member of the encoded object. -/
def encPair (k : Str) (v : Nat) : Str :=
  '"' :: (escChars k ++ '"' :: ':' :: natToStr v)

/-- The comma-separated members of the encoded object. -/
def encMembers : Index → Str
  | [] => []
  | [(k, v)] => encPair k v
  | (k, v) :: rest => encPair k v ++ ',' :: encMembers rest

/-- `json.NewEncoder(hash).Encode(hashIndex)`: the serialized object with
a trailing newline. -/
def encodeIndex (m : Index) : Str :=
  '\x7b' :: (encMembers m ++ '\x7d' :: '\n' :: [])

/-- `hash.Seek(0, io.SeekStart)` followed by a write that does not
truncate: the new bytes overlay the start of the old contents and any
longer old tail survives. -/
def overwriteFromStart (old new : Str) : Str :=
  new ++ old.drop new.length

/-- Parse a decimal integer token: at least one digit, stopping at the
first non-digit. -/
def parseNatTok (s : Str) : Option (Nat × Str) :=
  let ds := s.takeWhile isDigitCh
  if ds = [] then none else some (strToNat ds, s.dropWhile isDigitCh)

/-- Parse the body of a JSON string (opening quote already consumed),
undoing `escChars`; the fuel bounds recursion by the input length. -/
def parseJStr : Nat → Str → Option (Str × Str)
  | 0, _ => none
  | _ + 1, [] => none
  | f + 1, c :: rest =>
    if c = '"' then some ([], rest)
    else if c = '\\' then
      match rest with
      | [] => none
      | d :: rest2 =>
        match parseJStr f rest2 with
        | some (t, r) => some (d :: t, r)
        | none => none
    else
      match parseJStr f rest with
      | some (t, r) => some (c :: t, r)
      | none => none

/-- Parse one or more `"key":value` members followed by the closing
brace, returning the unconsumed remainder of the stream. -/
def parseMembers : Nat → Str → Option (Index × Str)
  | 0, _ => none
  | f + 1, s =>
    match s with
    | [] => none
    | c :: rest =>
      if c = '"' then
        match parseJStr (f + 1) rest with
        | some (k, rest2) =>
          match rest2 with
          | [] => none
          | c2 :: rest3 =>
            if c2 = ':' then
              match parseNatTok rest3 with
              | some (v, rest4) =>
                match rest4 with
                | [] => none
                | c3 :: rest5 =>
                  if c3 = ',' then
                    match parseMembers f rest5 with
                    | some (ps, r) => some ((k, v) :: ps, r)
                    | none => none
                  else if c3 = '\x7d' then some ([(k, v)], rest5)
                  else none
              | none => none
            else none
        | none => none
      else none

/-- Parse one JSON object from the front of the stream, leaving trailing
bytes unread, exactly as `json.Decoder.Decode` consumes a single value. -/
def parseObj (s : Str) : Option (Index × Str) :=
  match s with
  | [] => none
  | c :: rest =>
    if c = '\x7b' then
      match rest with
      | [] => none
      | d :: r2 =>
        if d = '\x7d' then some ([], r2) else parseMembers s.length rest
    else none

/-- Startup index loading (src/db.go main, lines 176-185): an empty
snapshot file leaves the freshly made index empty; otherwise one JSON
value is decoded from the stream and a decode failure is fatal. -/
def loadIndex (s : Str) : Except DBErr Index :=
  match s with
  | [] => Except.ok []
  | _ =>
    match parseObj s with
    | some (m, _) => Except.ok m
    | none => Except.error DBErr.CorruptSnapshot

/- ---------- The engine ---------- -/

/-- src/db.go `Set` (lines 110-145), successful execution: stat the log
(its current length), append `entry + "\n"`, record the pre-append length
as the offset for `strings.Split(entry, ",")[0]`, then seek the snapshot
file to 0 and re-encode the whole index over it. -/
def Set (st : DBState) (entry : Str) : DBState :=
  let offset := st.log.length
  let id := entryId entry
  let newIndex := idxInsert st.hashIndex id offset
  { log := st.log ++ (entry ++ ['\n'])
    hashIndex := newIndex
    snapshot := overwriteFromStart st.snapshot (encodeIndex newIndex) }

/-- src/db.go `Set` when `db.WriteString` fails (lines 119-122): the OS
may have persisted some prefix `written` of the data, the error is
returned before the index update and before the snapshot write. -/
def SetAppendFail (st : DBState) (written : Str) : DBState × DBErr :=
  ({ st with log := st.log ++ written }, DBErr.IoError)

/-- The write command of main (src/db.go lines 188-196): an entry without
the separator is rejected (`log.Fatal`) before `Set` runs, so the store
is untouched; otherwise `Set` runs. -/
def setEntry (st : DBState) (entry : Str) : DBState × Option DBErr :=
  if ',' ∈ entry then (Set st entry, none)
  else (st, some DBErr.InvalidEntryFormat)

/-- src/db.go `Get` (lines 44-80): with the index disabled, a full scan
from byte 0; with it enabled, either seek to the indexed offset and read
one token, or fall back to the full scan when the id is not indexed.
Each CLI run opens the log fresh, so scans start at byte 0. -/
def Get (st : DBState) (disableIndex : Bool) (id : Str) : Except DBErr Str :=
  if disableIndex then Except.ok (scanFullDB (scanTokens st.log) id)
  else
    match idxLookup st.hashIndex id with
    | some off => Except.ok (readLineAt st.log off)
    | none => Except.ok (scanFullDB (scanTokens st.log) id)

/-- A sequence of successful `Set` operations, applied in order. -/
def runSets (st : DBState) (es : List Str) : DBState :=
  es.foldl Set st

/-- A well-formed write request as main admits it plus single-line-ness:
it contains the separator and no newline. -/
def validEntry (e : Str) : Prop := (',' ∈ e) ∧ ('\n' ∉ e)

instance (e : Str) : Decidable (validEntry e) := by
  unfold validEntry; infer_instance

/- ---------- Generic list helper lemmas ---------- -/

theorem mem_of_getLast?_eq (l : Str) (a : Char) (h : l.getLast? = some a) :
    a ∈ l := by
  induction l with
  | nil => simp at h
  | cons c t ih =>
    cases t with
    | nil =>
      simp only [List.getLast?_singleton, Option.some.injEq] at h
      simp [h]
    | cons d t2 =>
      have h2 : (d :: t2).getLast? = some a := by
        simpa [List.getLast?_cons_cons] using h
      exact List.mem_cons_of_mem _ (ih h2)

theorem takeWhile_append_all (p : Char → Bool) (xs ys : Str)
    (h : ∀ a ∈ xs, p a = true) :
    (xs ++ ys).takeWhile p = xs ++ ys.takeWhile p := by
  induction xs with
  | nil => simp
  | cons a l ih =>
    have ha : p a = true := h a (List.mem_cons_self a l)
    simp [List.takeWhile_cons, ha,
      ih (fun b hb => h b (List.mem_cons_of_mem a hb))]

theorem dropWhile_append_all (p : Char → Bool) (xs ys : Str)
    (h : ∀ a ∈ xs, p a = true) :
    (xs ++ ys).dropWhile p = ys.dropWhile p := by
  induction xs with
  | nil => simp
  | cons a l ih =>
    have ha : p a = true := h a (List.mem_cons_self a l)
    simp [List.dropWhile_cons, ha,
      ih (fun b hb => h b (List.mem_cons_of_mem a hb))]

theorem takeWhile_append_mem_not (p : Char → Bool) (xs ys : Str) (a : Char)
    (ha : a ∈ xs) (hp : p a = false) :
    (xs ++ ys).takeWhile p = xs.takeWhile p := by
  induction xs with
  | nil => cases ha
  | cons c l ih =>
    by_cases hc : p c = true
    · have hal : a ∈ l := by
        cases ha with
        | head => rw [hp] at hc; cases hc
        | tail _ h2 => exact h2
      simp [List.takeWhile_cons, hc, ih hal]
    · simp only [Bool.not_eq_true] at hc
      simp [List.takeWhile_cons, hc]

theorem dropWhile_append_mem_not (p : Char → Bool) (xs ys : Str) (a : Char)
    (ha : a ∈ xs) (hp : p a = false) :
    (xs ++ ys).dropWhile p = xs.dropWhile p ++ ys := by
  induction xs with
  | nil => cases ha
  | cons c l ih =>
    by_cases hc : p c = true
    · have hal : a ∈ l := by
        cases ha with
        | head => rw [hp] at hc; cases hc
        | tail _ h2 => exact h2
      simp [List.dropWhile_cons, hc, ih hal]
    · simp only [Bool.not_eq_true] at hc
      simp [List.dropWhile_cons, hc]

theorem takeWhile_head_not (p : Char → Bool) (s : Str)
    (h : ∀ c, s.head? = some c → p c = false) :
    s.takeWhile p = [] := by
  cases s with
  | nil => rfl
  | cons c t =>
    have := h c rfl
    simp [List.takeWhile_cons, this]

theorem dropWhile_head_not (p : Char → Bool) (s : Str)
    (h : ∀ c, s.head? = some c → p c = false) :
    s.dropWhile p = s := by
  cases s with
  | nil => rfl
  | cons c t =>
    have := h c rfl
    simp [List.dropWhile_cons, this]

/- ---------- dropCR and entryId lemmas ---------- -/

theorem dropCR_of_ne (s : Str) (h : s.getLast? ≠ some '\r') : dropCR s = s := by
  simp [dropCR, h]

theorem dropCR_nil : dropCR [] = [] := rfl

theorem notNL_iff (c : Char) : notNL c = true ↔ c ≠ '\n' := by
  simp [notNL, bne_iff_ne]

theorem notComma_iff (c : Char) : notComma c = true ↔ c ≠ ',' := by
  simp [notComma, bne_iff_ne]

theorem entryId_key_prefix (K V : Str) (hK : ',' ∉ K) :
    entryId (K ++ ',' :: V) = K := by
  unfold entryId
  have h1 : List.takeWhile notComma (',' :: V) = [] := by
    simp [List.takeWhile_cons, notComma]
  rw [takeWhile_append_all notComma K (',' :: V) ?hall, h1, List.append_nil]
  intro a ha
  rw [notComma_iff]
  intro he
  exact hK (he ▸ ha)

theorem entryId_dropCR (e : Str) (hc : ',' ∈ e) : entryId (dropCR e) = entryId e := by
  by_cases h : e.getLast? = some '\r'
  · have hne : e ≠ [] := by intro h0; rw [h0] at h; simp at h
    have hgl : e.getLast hne = '\r' := by
      have h2 := List.getLast?_eq_getLast e hne
      rw [h2] at h
      injection h
    have hsplit : e.dropLast ++ ['\r'] = e := by
      have := List.dropLast_concat_getLast hne
      rw [hgl] at this
      exact this
    have hmem : ',' ∈ e.dropLast := by
      rw [← hsplit] at hc
      cases List.mem_append.mp hc with
      | inl h2 => exact h2
      | inr h2 =>
        simp only [List.mem_singleton] at h2
        cases h2
    have hdrop : dropCR e = e.dropLast := by simp [dropCR, h]
    rw [hdrop]
    unfold entryId
    calc e.dropLast.takeWhile notComma
        = (e.dropLast ++ ['\r']).takeWhile notComma := by
          rw [takeWhile_append_mem_not notComma e.dropLast ['\r'] ',' hmem
            (by simp [notComma])]
      _ = e.takeWhile notComma := by rw [hsplit]
  · rw [dropCR_of_ne e h]

/- ---------- Hash index lemmas ---------- -/

theorem idxLookup_insert_self (m : Index) (k : Str) (v : Nat) :
    idxLookup (idxInsert m k v) k = some v := by
  induction m with
  | nil => simp [idxInsert, idxLookup]
  | cons p rest ih =>
    obtain ⟨k2, v2⟩ := p
    by_cases h : k = k2
    · simp [idxInsert, idxLookup, h]
    · simp [idxInsert, idxLookup, h, ih]

theorem idxLookup_insert_ne (m : Index) (k k2 : Str) (v : Nat) (h : k2 ≠ k) :
    idxLookup (idxInsert m k v) k2 = idxLookup m k2 := by
  induction m with
  | nil => simp [idxInsert, idxLookup, h]
  | cons p rest ih =>
    obtain ⟨k3, v3⟩ := p
    by_cases h2 : k = k3
    · subst h2
      simp [idxInsert, idxLookup, h]
    · by_cases h3 : k2 = k3
      · simp [idxInsert, idxLookup, h2, h3]
      · simp [idxInsert, idxLookup, h2, h3, ih]

/- ---------- scanFullDB lemmas ---------- -/

theorem scanFullDB_nil (id : Str) : scanFullDB [] id = [] := rfl

theorem scanFullDB_snoc (ls : List Str) (l id : Str) :
    scanFullDB (ls ++ [l]) id =
      if entryId l = id then l else scanFullDB ls id := by
  simp [scanFullDB, List.foldl_append]

theorem scanFullDB_keep (ls : List Str) (id : Str) (a : Str)
    (h : ∀ l ∈ ls, entryId l ≠ id) :
    ls.foldl (fun entry line => if entryId line = id then line else entry) a
      = a := by
  induction ls generalizing a with
  | nil => rfl
  | cons x t ih =>
    have hx : entryId x ≠ id := h x (List.mem_cons_self x t)
    simp only [List.foldl_cons, if_neg hx]
    exact ih a (fun l hl => h l (List.mem_cons_of_mem x hl))

theorem scanFullDB_no_match (ls : List Str) (id : Str)
    (h : ∀ l ∈ ls, entryId l ≠ id) :
    scanFullDB ls id = [] :=
  scanFullDB_keep ls id [] h

/- ---------- Scanner lemmas ---------- -/

theorem scanTokensAux_newline (xs : Str) :
    ∀ (acc rest : Str), '\n' ∉ xs →
    scanTokensAux (xs ++ '\n' :: rest) acc =
      dropCR (acc.reverse ++ xs) :: scanTokensAux rest [] := by
  induction xs with
  | nil =>
    intro acc rest _
    simp [scanTokensAux]
  | cons c l ih =>
    intro acc rest h
    have hc : c ≠ '\n' := fun h2 => h (h2 ▸ List.mem_cons_self c l)
    have hl : '\n' ∉ l := fun h2 => h (List.mem_cons_of_mem c h2)
    simp only [List.cons_append, scanTokensAux, if_neg hc, List.append_eq]
    rw [ih (c :: acc) rest hl]
    simp

theorem scanTokensAux_no_newline (xs : Str) :
    ∀ acc : Str, '\n' ∉ xs →
    scanTokensAux xs acc =
      if acc.reverse ++ xs = [] then [] else [dropCR (acc.reverse ++ xs)] := by
  induction xs with
  | nil =>
    intro acc _
    by_cases ha : acc = []
    · simp [scanTokensAux, ha]
    · have h2 : acc.reverse ≠ [] := by simpa using ha
      simp [scanTokensAux, ha, h2]
  | cons c l ih =>
    intro acc h
    have hc : c ≠ '\n' := fun h2 => h (h2 ▸ List.mem_cons_self c l)
    have hl : '\n' ∉ l := fun h2 => h (List.mem_cons_of_mem c h2)
    simp only [scanTokensAux, if_neg hc]
    rw [ih (c :: acc) hl]
    have h1 : (c :: acc).reverse ++ l = acc.reverse ++ (c :: l) := by simp
    rw [h1]

theorem scanTokens_nil : scanTokens [] = [] := rfl

theorem scanTokens_line (xs rest : Str) (h : '\n' ∉ xs) :
    scanTokens (xs ++ '\n' :: rest) = dropCR xs :: scanTokens rest := by
  unfold scanTokens
  rw [scanTokensAux_newline xs [] rest h]
  simp

theorem scanTokens_no_newline (xs : Str) (h : '\n' ∉ xs) :
    scanTokens xs = if xs = [] then [] else [dropCR xs] := by
  unfold scanTokens
  rw [scanTokensAux_no_newline xs [] h]
  simp

theorem scanTokens_record (e : Str) (h : '\n' ∉ e) :
    scanTokens (e ++ ['\n']) = [dropCR e] := by
  have := scanTokens_line e [] h
  simpa [scanTokens_nil] using this

theorem split_first_newline (A : Str) (h : '\n' ∈ A) :
    ∃ xs tail, A = xs ++ '\n' :: tail ∧ '\n' ∉ xs := by
  induction A with
  | nil => cases h
  | cons c l ih =>
    by_cases hc : c = '\n'
    · exact ⟨[], l, by simp [hc], by simp⟩
    · have hmem : '\n' ∈ l := by
        cases h with
        | head => exact absurd rfl hc
        | tail _ h2 => exact h2
      obtain ⟨xs, tail, h1, h2⟩ := ih hmem
      exact ⟨c :: xs, tail, by simp [h1], by
        intro h3
        cases h3 with
        | head => exact hc rfl
        | tail _ h4 => exact h2 h4⟩

theorem scanTokens_append_aux : ∀ (n : Nat) (A : Str), A.length ≤ n →
    A.getLast? = some '\n' → ∀ B,
    scanTokens (A ++ B) = scanTokens A ++ scanTokens B := by
  intro n
  induction n with
  | zero =>
    intro A hlen hA B
    have : A = [] := List.length_eq_zero.mp (Nat.le_zero.mp hlen)
    rw [this] at hA
    simp at hA
  | succ n ih =>
    intro A hlen hA B
    have hmem : '\n' ∈ A := mem_of_getLast?_eq A '\n' hA
    obtain ⟨xs, tail, hsplit, hxs⟩ := split_first_newline A hmem
    subst hsplit
    rw [List.append_assoc, List.cons_append]
    rw [scanTokens_line xs (tail ++ B) hxs, scanTokens_line xs tail hxs]
    cases tail with
    | nil => simp [scanTokens_nil]
    | cons d t =>
      have htail : (d :: t).getLast? = some '\n' := by
        rw [List.getLast?_append_of_ne_nil xs
          (by simp : ('\n' :: d :: t : Str) ≠ []),
          List.getLast?_cons_cons] at hA
        exact hA
      have hlen2 : (d :: t).length ≤ n := by
        simp only [List.length_append, List.length_cons] at hlen ⊢
        omega
      rw [ih (d :: t) hlen2 htail B]
      simp

theorem scanTokens_append (A B : Str) (hA : A.getLast? = some '\n') :
    scanTokens (A ++ B) = scanTokens A ++ scanTokens B :=
  scanTokens_append_aux A.length A (le_refl _) hA B

/- ---------- Decimal codec lemmas ---------- -/

theorem digitChar_toNat (d : Nat) (h : d < 10) : (digitChar d).toNat = 48 + d := by
  interval_cases d <;> decide

theorem isDigitCh_digitChar (d : Nat) (h : d < 10) :
    isDigitCh (digitChar d) = true := by
  interval_cases d <;> decide

theorem natToStrAux_acc (f : Nat) : ∀ (n : Nat) (acc : Str),
    natToStrAux f n acc = natToStrAux f n [] ++ acc := by
  induction f with
  | zero => intro n acc; rfl
  | succ f ih =>
    intro n acc
    by_cases h : n < 10
    · simp [natToStrAux, h]
    · simp only [natToStrAux, if_neg h]
      rw [ih (n / 10) (digitChar (n % 10) :: acc),
        ih (n / 10) [digitChar (n % 10)]]
      simp

theorem natToStrAux_fuel (n : Nat) : ∀ (f f2 : Nat), n < f → n < f2 →
    ∀ acc, natToStrAux f n acc = natToStrAux f2 n acc := by
  induction n using Nat.strong_induction_on with
  | _ n ih =>
    intro f f2 hf hf2 acc
    match f, f2 with
    | f + 1, f2 + 1 =>
      by_cases h : n < 10
      · simp [natToStrAux, h]
      · simp only [natToStrAux, if_neg h]
        have hdiv : n / 10 < n := Nat.div_lt_self (by omega) (by omega)
        exact ih (n / 10) hdiv f f2 (by omega) (by omega) _

theorem natToStr_foldl (n : Nat) : ∀ (f : Nat), n < f → ∀ (a : Nat),
    (natToStrAux f n []).foldl (fun a c => a * 10 + (c.toNat - 48)) a =
      a * 10 ^ (natToStrAux f n []).length + n := by
  induction n using Nat.strong_induction_on with
  | _ n ih =>
    intro f hf a
    match f with
    | f + 1 =>
      by_cases h : n < 10
      · simp [natToStrAux, h, digitChar_toNat n h]
      · simp only [natToStrAux, if_neg h]
        rw [natToStrAux_acc f (n / 10) [digitChar (n % 10)]]
        have hdiv : n / 10 < n := Nat.div_lt_self (by omega) (by omega)
        have hdf : n / 10 < f := by omega
        simp only [List.foldl_append, List.foldl_cons, List.foldl_nil,
          List.length_append, List.length_cons, List.length_nil, Nat.zero_add]
        rw [ih (n / 10) hdiv f hdf a]
        rw [digitChar_toNat (n % 10) (Nat.mod_lt n (by omega))]
        rw [pow_succ]
        have key : ∀ P : Nat,
            (a * P + n / 10) * 10 + (48 + n % 10 - 48) = a * (P * 10) + n := by
          intro P
          have hmod : n / 10 * 10 + n % 10 = n := by omega
          have hsub : 48 + n % 10 - 48 = n % 10 := by omega
          rw [hsub]
          calc (a * P + n / 10) * 10 + n % 10
              = a * (P * 10) + (n / 10 * 10 + n % 10) := by ring
            _ = a * (P * 10) + n := by rw [hmod]
        exact key _

theorem strToNat_natToStr (n : Nat) : strToNat (natToStr n) = n := by
  have := natToStr_foldl n (n + 1) (by omega) 0
  simpa [strToNat, natToStr] using this

theorem natToStr_digits (n : Nat) : ∀ (f : Nat), n < f →
    ∀ c ∈ natToStrAux f n [], isDigitCh c = true := by
  induction n using Nat.strong_induction_on with
  | _ n ih =>
    intro f hf c hc
    match f with
    | f + 1 =>
      by_cases h : n < 10
      · simp only [natToStrAux, if_pos h] at hc
        cases hc with
        | head => exact isDigitCh_digitChar n h
        | tail _ h2 => cases h2
      · simp only [natToStrAux, if_neg h] at hc
        rw [natToStrAux_acc f (n / 10) [digitChar (n % 10)]] at hc
        have hdiv : n / 10 < n := Nat.div_lt_self (by omega) (by omega)
        cases List.mem_append.mp hc with
        | inl h2 => exact ih (n / 10) hdiv f (by omega) c h2
        | inr h2 =>
          simp only [List.mem_singleton] at h2
          rw [h2]
          exact isDigitCh_digitChar (n % 10) (Nat.mod_lt n (by omega))

theorem natToStr_ne_nil (n : Nat) : natToStr n ≠ [] := by
  unfold natToStr
  by_cases h : n < 10
  · simp [natToStrAux, h]
  · simp only [natToStrAux, if_neg h]
    rw [natToStrAux_acc n (n / 10) [digitChar (n % 10)]]
    simp

/- ---------- JSON codec round-trip lemmas ---------- -/

theorem escChars_length (k : Str) : k.length ≤ (escChars k).length := by
  induction k with
  | nil => simp [escChars]
  | cons c cs ih =>
    by_cases h : c = '"' ∨ c = '\\'
    · simp only [escChars, if_pos h, List.length_cons]
      omega
    · simp only [escChars, if_neg h, List.length_cons]
      omega

theorem parseJStr_round (k : Str) : ∀ (fuel : Nat) (rest : Str),
    k.length < fuel →
    parseJStr fuel (escChars k ++ '"' :: rest) = some (k, rest) := by
  induction k with
  | nil =>
    intro fuel rest h
    match fuel with
    | f + 1 => simp [escChars, parseJStr]
  | cons c cs ih =>
    intro fuel rest h
    have hlen : cs.length < fuel - 1 := by
      simp only [List.length_cons] at h; omega
    match fuel with
    | f + 1 =>
      by_cases hc : c = '"' ∨ c = '\\'
      · simp only [escChars, if_pos hc, List.cons_append, parseJStr]
        rw [ih f rest hlen]
        simp
      · have hc1 : c ≠ '"' := fun he => hc (Or.inl he)
        have hc2 : c ≠ '\\' := fun he => hc (Or.inr he)
        simp only [escChars, if_neg hc, List.cons_append, parseJStr,
          if_neg hc1, if_neg hc2]
        rw [ih f rest hlen]

theorem parseNatTok_round (v : Nat) (rest : Str)
    (h : ∀ c, rest.head? = some c → isDigitCh c = false) :
    parseNatTok (natToStr v ++ rest) = some (v, rest) := by
  unfold parseNatTok
  have hdig : ∀ c ∈ natToStr v, isDigitCh c = true :=
    fun c hc => natToStr_digits v (v + 1) (by omega) c hc
  rw [takeWhile_append_all isDigitCh (natToStr v) rest hdig,
    dropWhile_append_all isDigitCh (natToStr v) rest hdig,
    takeWhile_head_not isDigitCh rest h,
    dropWhile_head_not isDigitCh rest h]
  simp [natToStr_ne_nil v, strToNat_natToStr v]

theorem encMembers_head (k : Str) (v : Nat) (m : Index) :
    ∃ t, encMembers ((k, v) :: m) = '"' :: t := by
  cases m with
  | nil => exact ⟨_, rfl⟩
  | cons q m2 => exact ⟨_, rfl⟩

theorem parseMembers_round : ∀ (m : Index) (junk : Str) (fuel : Nat),
    m ≠ [] →
    (encMembers m ++ '\x7d' :: junk).length ≤ fuel →
    parseMembers fuel (encMembers m ++ '\x7d' :: junk) = some (m, junk) := by
  intro m
  induction m with
  | nil => intro junk fuel h _; cases h rfl
  | cons p m2 ih =>
    obtain ⟨k, v⟩ := p
    intro junk fuel _ hlen
    match fuel with
    | 0 => simp at hlen
    | f + 1 =>
      have hesc := escChars_length k
      cases m2 with
      | nil =>
        have hk : k.length < f + 1 := by
          simp only [encMembers, encPair, List.length_append,
            List.length_cons] at hlen
          omega
        simp only [encMembers, encPair, List.cons_append, List.append_assoc,
          parseMembers]
        rw [parseJStr_round k (f + 1)
          (':' :: (natToStr v ++ '\x7d' :: junk)) hk]
        simp [parseNatTok_round v ('\x7d' :: junk)
          (by intro c hc; injection hc with h2; subst h2; decide)]
      | cons q m3 =>
        have hk : k.length < f + 1 := by
          simp only [encMembers, encPair, List.length_append,
            List.length_cons] at hlen
          omega
        have hrec : (encMembers (q :: m3) ++ '\x7d' :: junk).length ≤ f := by
          have hv := natToStr_ne_nil v
          have hv1 : 1 ≤ (natToStr v).length := by
            cases hn : natToStr v with
            | nil => cases hv hn
            | cons a t => simp
          simp only [encMembers, encPair, List.length_append,
            List.length_cons] at hlen ⊢
          omega
        simp only [encMembers, encPair, List.cons_append, List.append_assoc,
          parseMembers]
        rw [parseJStr_round k (f + 1)
          (':' :: (natToStr v ++ ',' :: (encMembers (q :: m3) ++ '\x7d' :: junk)))
          hk]
        simp [parseNatTok_round v
            (',' :: (encMembers (q :: m3) ++ '\x7d' :: junk))
            (by intro c hc; injection hc with h2; subst h2; decide),
          ih junk f (by simp) hrec]

theorem parseObj_round (m : Index) (junk : Str) :
    parseObj (encodeIndex m ++ junk) = some (m, '\n' :: junk) := by
  have hshape : encodeIndex m ++ junk =
      '\x7b' :: (encMembers m ++ '\x7d' :: '\n' :: junk) := by
    simp [encodeIndex]
  rw [hshape]
  cases m with
  | nil => simp [encMembers, parseObj]
  | cons p m2 =>
    obtain ⟨k, v⟩ := p
    obtain ⟨t, ht⟩ := encMembers_head k v m2
    rw [ht]
    simp only [List.cons_append, parseObj]
    have hq : ('"' : Char) ≠ '\x7d' := by decide
    simp only [if_neg hq, if_pos rfl]
    have hback : ('"' : Char) :: (t ++ '\x7d' :: '\n' :: junk) =
        encMembers ((k, v) :: m2) ++ '\x7d' :: '\n' :: junk := by
      rw [ht]; simp
    rw [hback]
    exact parseMembers_round ((k, v) :: m2) ('\n' :: junk) _
      (by simp)
      (by rw [← hback]; simp)

theorem loadIndex_round (m : Index) (old : Str) :
    loadIndex (overwriteFromStart old (encodeIndex m)) = Except.ok m := by
  unfold overwriteFromStart
  have h1 : encodeIndex m ++ old.drop (encodeIndex m).length =
      '\x7b' :: (encMembers m ++ '\x7d' :: '\n' ::
        old.drop (encodeIndex m).length) := by
    simp [encodeIndex]
  rw [h1]
  show (match parseObj ('\x7b' :: (encMembers m ++ '\x7d' :: '\n' ::
      old.drop (encodeIndex m).length)) with
    | some (m2, _) => Except.ok m2
    | none => Except.error DBErr.CorruptSnapshot) = Except.ok m
  rw [← h1, parseObj_round m (old.drop (encodeIndex m).length)]

theorem loadIndex_nil : loadIndex [] = Except.ok [] := rfl

/- ---------- Reachable-store invariant ---------- -/

theorem takeWhile_notNL_stop (e r : Str) (h : '\n' ∉ e) :
    (e ++ '\n' :: r).takeWhile notNL = e := by
  rw [takeWhile_append_all notNL e ('\n' :: r)
    (fun a ha => (notNL_iff a).mpr (fun h2 => h (h2 ▸ ha)))]
  simp [List.takeWhile_cons, notNL]

theorem Set_log (st : DBState) (e : Str) :
    (Set st e).log = st.log ++ (e ++ ['\n']) := rfl

theorem Set_hashIndex (st : DBState) (e : Str) :
    (Set st e).hashIndex = idxInsert st.hashIndex (entryId e) st.log.length :=
  rfl

theorem Set_snapshot (st : DBState) (e : Str) :
    (Set st e).snapshot =
      overwriteFromStart st.snapshot (encodeIndex (Set st e).hashIndex) := rfl

/-- Everything a store reachable by well-formed writes satisfies: the log
is empty or newline-terminated, and every indexed offset is in range,
inside a newline-terminated line, sits at a line boundary, stores the
line's id as its key, and the record read there is exactly what the full
scan returns for that key. -/
def StoreInv (st : DBState) : Prop :=
  (st.log = [] ∨ st.log.getLast? = some '\n') ∧
  ∀ K off, idxLookup st.hashIndex K = some off →
    off < st.log.length ∧
    '\n' ∈ st.log.drop off ∧
    (off = 0 ∨ st.log.drop (off - 1) = '\n' :: st.log.drop off) ∧
    (lineAt st.log off).takeWhile notComma = K ∧
    readLineAt st.log off = scanFullDB (scanTokens st.log) K

theorem storeInv_empty : StoreInv emptyStore := by
  constructor
  · left; rfl
  · intro K off h
    simp [emptyStore, idxLookup] at h

theorem scanTokens_set_log (st : DBState) (e : Str) (hnl : '\n' ∉ e)
    (hterm : st.log = [] ∨ st.log.getLast? = some '\n') :
    scanTokens (Set st e).log = scanTokens st.log ++ [dropCR e] := by
  rw [Set_log]
  cases hterm with
  | inl h0 => rw [h0]; simp [scanTokens_record e hnl, scanTokens_nil]
  | inr hlast =>
    rw [scanTokens_append st.log (e ++ ['\n']) hlast,
      scanTokens_record e hnl]

theorem storeInv_set (st : DBState) (e : Str) (hv : validEntry e)
    (hinv : StoreInv st) : StoreInv (Set st e) := by
  obtain ⟨hterm, hidx⟩ := hinv
  obtain ⟨hcomma, hnl⟩ := hv
  have hid : entryId (dropCR e) = entryId e := entryId_dropCR e hcomma
  have hscan := scanTokens_set_log st e hnl hterm
  constructor
  · right
    rw [Set_log, List.getLast?_append_of_ne_nil st.log (by simp),
      List.getLast?_concat]
  · intro K off h
    rw [Set_hashIndex] at h
    by_cases hK : K = entryId e
    · subst hK
      rw [idxLookup_insert_self] at h
      injection h with hoff
      subst hoff
      have hdropL : (Set st e).log.drop st.log.length = e ++ ['\n'] := by
        rw [Set_log]; exact List.drop_left st.log (e ++ ['\n'])
      have hline : lineAt (Set st e).log st.log.length = e := by
        unfold lineAt
        rw [hdropL]
        have : e ++ ['\n'] = e ++ '\n' :: [] := rfl
        rw [this, takeWhile_notNL_stop e [] hnl]
      refine ⟨?_, ?_, ?_, ?_, ?_⟩
      · rw [Set_log]; simp
      · rw [hdropL]; simp
      · cases hterm with
        | inl h0 => left; rw [h0]; rfl
        | inr hlast =>
          right
          have hne : st.log ≠ [] := by
            intro h0; rw [h0] at hlast; simp at hlast
          have hgl : st.log.getLast hne = '\n' := by
            have h2 := List.getLast?_eq_getLast st.log hne
            rw [h2] at hlast
            injection hlast
          have hsplit : st.log.dropLast ++ ['\n'] = st.log := by
            have h2 := List.dropLast_concat_getLast hne
            rw [hgl] at h2
            exact h2
          have hL : st.log.length - 1 = st.log.dropLast.length := by simp
          have hlog2 : (Set st e).log =
              st.log.dropLast ++ ('\n' :: (e ++ ['\n'])) := by
            conv_lhs => rw [Set_log, ← hsplit]
            simp
          have e1 : (Set st e).log.drop (st.log.length - 1) =
              '\n' :: (e ++ ['\n']) := by
            rw [hL, hlog2]
            exact List.drop_left _ _
          rw [e1, hdropL]
      · rw [hline]; rfl
      · unfold readLineAt
        rw [hline, hscan, scanFullDB_snoc, hid, if_pos rfl]
    · rw [idxLookup_insert_ne st.hashIndex (entryId e) K st.log.length hK] at h
      obtain ⟨ha, hb, hc, hd, he⟩ := hidx K off h
      have hdrop2 : (Set st e).log.drop off = st.log.drop off ++ (e ++ ['\n']) := by
        rw [Set_log]
        exact List.drop_append_of_le_length (Nat.le_of_lt ha)
      have hline2 : lineAt (Set st e).log off = lineAt st.log off := by
        unfold lineAt
        rw [hdrop2]
        exact takeWhile_append_mem_not notNL _ _ '\n' hb (by simp [notNL])
      refine ⟨?_, ?_, ?_, ?_, ?_⟩
      · rw [Set_log]; simp
        omega
      · rw [hdrop2]
        exact List.mem_append_left _ hb
      · cases hc with
        | inl h0 => left; exact h0
        | inr hc2 =>
          right
          have hdrop3 : (Set st e).log.drop (off - 1) =
              st.log.drop (off - 1) ++ (e ++ ['\n']) := by
            rw [Set_log]
            exact List.drop_append_of_le_length (by omega)
          rw [hdrop3, hdrop2, hc2]
          rfl
      · rw [hline2]; exact hd
      · unfold readLineAt
        rw [hline2, hscan, scanFullDB_snoc, hid, if_neg (fun h2 => hK h2.symm)]
        exact he

theorem storeInv_runSets (st : DBState) (es : List Str)
    (hes : ∀ e ∈ es, validEntry e) (hinv : StoreInv st) :
    StoreInv (runSets st es) := by
  induction es generalizing st with
  | nil => exact hinv
  | cons e t ih =>
    have h1 : runSets st (e :: t) = runSets (Set st e) t := by
      simp [runSets]
    rw [h1]
    exact ih (Set st e)
      (fun e2 h2 => hes e2 (List.mem_cons_of_mem e h2))
      (storeInv_set st e (hes e (List.mem_cons_self e t)) hinv)

/- ---------- Claim theorems ---------- -/

/-- Claim C1 (code evidence for the divergence): on the store produced by
setting entry "1,foo", `Get "1"` returns the whole record line "1,foo" in
both the indexed and the index-disabled mode — not the bare value "foo"
that the specification, the README example and the function's own doc
comment (imitating `grep "^$1," | sed "s/^$1,//" | tail -n 1`) promise. -/
theorem set_then_get_returns_full_line :
    Get (Set emptyStore ("1,foo").toList) false ("1").toList =
      Except.ok (("1,foo").toList) ∧
    Get (Set emptyStore ("1,foo").toList) true ("1").toList =
      Except.ok (("1,foo").toList) ∧
    ("1,foo").toList ≠ ("foo").toList :=
  ⟨rfl, rfl, by decide⟩

/-- Claim C2 (counterexample): after setting "1,a" and then "1,b", both
Get modes return the full latest record line "1,b", not the bare value
"b" that the claim states. -/
theorem lww_value_counterexample :
    Get (runSets emptyStore [("1,a").toList, ("1,b").toList]) false
      ("1").toList = Except.ok (("1,b").toList) ∧
    Get (runSets emptyStore [("1,a").toList, ("1,b").toList]) true
      ("1").toList = Except.ok (("1,b").toList) ∧
    ("1,b").toList ≠ ("b").toList :=
  ⟨rfl, rfl, by decide⟩

/-- Claim C2 (amended): last-write-wins over record lines.  From any
store state, after `Set (K ++ "," ++ V1)` then `Set (K ++ "," ++ V2)` —
with K separator- and newline-free, V2 newline-free and not ending in a
carriage return (the scanner strips one) — both Get modes return the
latest record line `K ++ "," ++ V2`: the full scan keeps the last
matching line, and the index points at the last append. -/
theorem lww_returns_latest_record_line (st : DBState) (K V1 V2 : Str)
    (hK1 : ',' ∉ K) (hK2 : '\n' ∉ K) (hV2 : '\n' ∉ V2)
    (hV2r : V2.getLast? ≠ some '\r') :
    Get (Set (Set st (K ++ ',' :: V1)) (K ++ ',' :: V2)) false K =
      Except.ok (K ++ ',' :: V2) ∧
    Get (Set (Set st (K ++ ',' :: V1)) (K ++ ',' :: V2)) true K =
      Except.ok (K ++ ',' :: V2) := by
  set e1 := K ++ ',' :: V1 with he1
  set e2 := K ++ ',' :: V2 with he2
  have hid2 : entryId e2 = K := entryId_key_prefix K V2 hK1
  have hnl2 : '\n' ∉ e2 := by
    intro h
    cases List.mem_append.mp h with
    | inl h2 => exact hK2 h2
    | inr h2 =>
      cases h2 with
      | tail _ h3 => exact hV2 h3
  have hlast2 : e2.getLast? ≠ some '\r' := by
    rw [he2, List.getLast?_append_of_ne_nil K (by simp)]
    cases V2 with
    | nil => decide
    | cons a t =>
      rw [show (',' :: a :: t : Str) = [','] ++ (a :: t) from rfl,
        List.getLast?_append_of_ne_nil [','] (by simp)]
      exact hV2r
  have hcr2 : dropCR e2 = e2 := dropCR_of_ne e2 hlast2
  have hA : (Set st e1).log.getLast? = some '\n' := by
    rw [Set_log, List.getLast?_append_of_ne_nil st.log (by simp),
      List.getLast?_concat]
  have hlook : idxLookup (Set (Set st e1) e2).hashIndex K = some
      (Set st e1).log.length := by
    rw [Set_hashIndex, hid2]
    exact idxLookup_insert_self _ _ _
  have hread : readLineAt (Set (Set st e1) e2).log (Set st e1).log.length
      = e2 := by
    unfold readLineAt lineAt
    rw [Set_log (Set st e1) e2, List.drop_left]
    rw [show e2 ++ ['\n'] = e2 ++ '\n' :: [] from rfl,
      takeWhile_notNL_stop e2 [] hnl2, hcr2]
  have hscan : scanFullDB (scanTokens (Set (Set st e1) e2).log) K = e2 := by
    rw [Set_log (Set st e1) e2, scanTokens_append _ _ hA,
      scanTokens_record e2 hnl2, hcr2, scanFullDB_snoc, hid2, if_pos rfl]
  constructor
  · unfold Get
    simp only [Bool.false_eq_true, if_false, hlook, hread]
  · unfold Get
    simp only [if_true, hscan]

/-- Claim C3 (counterexample): the entry "a\nb,c" passes main's separator
check (it contains a comma), yet after writing it the two Get modes
disagree on key "a\nb": the indexed path reads the line "a" at offset 0,
the full scan finds no line whose id is "a\nb" and returns "". -/
theorem parity_counterexample :
    Get (runSets emptyStore [("a\nb,c").toList]) false ("a\nb").toList =
      Except.ok (("a").toList) ∧
    Get (runSets emptyStore [("a\nb,c").toList]) true ("a\nb").toList =
      Except.ok ([]) ∧
    ("a").toList ≠ ([] : Str) :=
  ⟨rfl, rfl, by decide⟩

/-- Claim C3 (amended): for every sequence of successful Set operations
on single-line entries (each entry contains the separator and no newline,
starting from the empty store) and every key K — present or absent — the
indexed path and the disabled-index path of Get return identical
results. -/
theorem index_noindex_parity (es : List Str)
    (hes : ∀ e ∈ es, validEntry e) (K : Str) :
    Get (runSets emptyStore es) false K =
      Get (runSets emptyStore es) true K := by
  obtain ⟨_, hidx⟩ := storeInv_runSets emptyStore es hes storeInv_empty
  unfold Get
  cases hlook : idxLookup (runSets emptyStore es).hashIndex K with
  | none => simp [hlook]
  | some off =>
    obtain ⟨_, _, _, _, he⟩ := hidx K off hlook
    simp [hlook, he]

/-- Claim C4: a provided entry without the separator character is
rejected with InvalidEntryFormat before `Set` runs; the log, its length,
the hash index and the snapshot are all exactly unchanged. -/
theorem invalid_entry_rejected (st : DBState) (e : Str)
    (_hne : e ≠ []) (hsep : ',' ∉ e) :
    (setEntry st e).2 = some DBErr.InvalidEntryFormat ∧
    (setEntry st e).1.log = st.log ∧
    (setEntry st e).1.log.length = st.log.length ∧
    (setEntry st e).1.hashIndex = st.hashIndex ∧
    (setEntry st e).1.snapshot = st.snapshot := by
  simp [setEntry, hsep]

/-- Claim C5: persisting the index over the snapshot stream (seek to 0,
write, no truncation) and loading it back reproduces exactly the same
key-to-offset mapping, for every index and every previous snapshot
content — longer stale serializations included, since the decoder reads
one JSON value and never touches the trailing bytes; loading an empty or
absent snapshot yields the empty index; in particular after any `Set`
the stored snapshot loads back to the in-memory index. -/
theorem snapshot_roundtrip (m : Index) (old : Str) (st : DBState)
    (e : Str) :
    loadIndex (overwriteFromStart old (encodeIndex m)) = Except.ok m ∧
    loadIndex [] = Except.ok [] ∧
    loadIndex ((Set st e).snapshot) = Except.ok ((Set st e).hashIndex) :=
  ⟨loadIndex_round m old, rfl,
    loadIndex_round ((Set st e).hashIndex) st.snapshot⟩

/-- Claim C6: every successful `Set` stores the log length measured
before the append as the offset of the entry's id, grows the log by
exactly the record length plus one newline byte, and the binding keeps
that offset across any further Sets whose ids differ. -/
theorem set_records_preappend_offset (st : DBState) (e : Str)
    (es : List Str) (hes : ∀ e2 ∈ es, entryId e2 ≠ entryId e) :
    idxLookup (Set st e).hashIndex (entryId e) = some st.log.length ∧
    (Set st e).log.length = st.log.length + (e.length + 1) ∧
    idxLookup (runSets (Set st e) es).hashIndex (entryId e) =
      some st.log.length := by
  have gen : ∀ (ts : List Str), (∀ e2 ∈ ts, entryId e2 ≠ entryId e) →
      ∀ (st2 : DBState),
      idxLookup (runSets st2 ts).hashIndex (entryId e) =
        idxLookup st2.hashIndex (entryId e) := by
    intro ts
    induction ts with
    | nil => intro _ st2; rfl
    | cons x t ih =>
      intro hts st2
      have h1 : runSets st2 (x :: t) = runSets (Set st2 x) t := by
        simp [runSets]
      rw [h1, ih (fun e2 h2 => hts e2 (List.mem_cons_of_mem x h2)) (Set st2 x)]
      rw [Set_hashIndex]
      exact idxLookup_insert_ne _ _ _ _
        (fun h2 => (hts x (List.mem_cons_self x t)) h2.symm)
  refine ⟨?_, ?_, ?_⟩
  · rw [Set_hashIndex]
    exact idxLookup_insert_self _ _ _
  · rw [Set_log]
    simp
  · rw [gen es hes (Set st e), Set_hashIndex]
    exact idxLookup_insert_self _ _ _

/-- Claim C7: for a key that is neither indexed nor carried by any line
of the log, both Get modes answer with the not-found marker (the empty
entry, printed by main as "not contained in the database") wrapped in a
success, never with an error. -/
theorem get_missing_key_not_found (st : DBState) (K : Str)
    (h1 : idxLookup st.hashIndex K = none)
    (h2 : ∀ l ∈ scanTokens st.log, entryId l ≠ K) :
    Get st false K = Except.ok [] ∧
    Get st true K = Except.ok [] ∧
    (∀ err : DBErr, Get st false K ≠ Except.error err) ∧
    (∀ err : DBErr, Get st true K ≠ Except.error err) := by
  have hscan : scanFullDB (scanTokens st.log) K = [] :=
    scanFullDB_no_match _ _ h2
  unfold Get
  simp [h1, hscan]

/-- Claim C8: when the log append inside `Set` fails, `Set` returns the
I/O error before touching the hash index or the snapshot; the index is
exactly what it was, and since the log only grew, no stored offset can
point past the true end of the log if none did before. -/
theorem append_failure_leaves_index_intact (st : DBState) (written : Str)
    (hval : ∀ K off, idxLookup st.hashIndex K = some off →
      off < st.log.length) :
    (SetAppendFail st written).1.hashIndex = st.hashIndex ∧
    (SetAppendFail st written).1.snapshot = st.snapshot ∧
    (SetAppendFail st written).2 = DBErr.IoError ∧
    ∀ K off, idxLookup (SetAppendFail st written).1.hashIndex K = some off →
      off < (SetAppendFail st written).1.log.length := by
  refine ⟨rfl, rfl, rfl, ?_⟩
  intro K off h
  have h2 := hval K off h
  show off < (st.log ++ written).length
  simp only [List.length_append]
  omega

/-- Claim C9: whenever the hash index maps the requested id to an offset,
the indexed Get seeks there, reads exactly one record and returns it
as-is — no comparison of the record's embedded id against the request,
and no error even when they differ. -/
theorem indexed_get_trusts_index (st : DBState) (K : Str) (off : Nat)
    (h : idxLookup st.hashIndex K = some off) :
    Get st false K = Except.ok (readLineAt st.log off) ∧
    ∀ err : DBErr, Get st false K ≠ Except.error err := by
  unfold Get
  simp [h]

/-- Claim C10 (counterexample): after the successful Set of "a\nb,c"
(it contains a comma, so main admits it) the index stores offset 0 under
the key "a\nb", but the log line starting at offset 0 is "a", whose text
up to the first separator is "a", not "a\nb". -/
theorem index_key_line_counterexample :
    idxLookup (runSets emptyStore [("a\nb,c").toList]).hashIndex
      (("a\nb").toList) = some 0 ∧
    (lineAt (runSets emptyStore [("a\nb,c").toList]).log 0).takeWhile
      notComma = ("a").toList ∧
    ("a").toList ≠ ("a\nb").toList :=
  ⟨rfl, rfl, by decide⟩

/-- Claim C10 (amended): restricted to successful Sets of single-line
entries (separator present, no newline), every offset stored in the hash
index of a store reachable from the empty one is strictly inside the
log, points at the first byte of a complete newline-terminated line
lying at a line boundary, and the key it is stored under is exactly that
line's text up to the first separator. -/
theorem index_offsets_point_at_records (es : List Str)
    (hes : ∀ e ∈ es, validEntry e) (K : Str) (off : Nat)
    (h : idxLookup (runSets emptyStore es).hashIndex K = some off) :
    off < (runSets emptyStore es).log.length ∧
    '\n' ∈ (runSets emptyStore es).log.drop off ∧
    (off = 0 ∨ (runSets emptyStore es).log.drop (off - 1) =
      '\n' :: (runSets emptyStore es).log.drop off) ∧
    (lineAt (runSets emptyStore es).log off).takeWhile notComma = K := by
  obtain ⟨_, hidx⟩ := storeInv_runSets emptyStore es hes storeInv_empty
  obtain ⟨h1, h2, h3, h4, _⟩ := hidx K off h
  exact ⟨h1, h2, h3, h4⟩

/- ---------- Witnesses ---------- -/

/-- Witness for `lww_returns_latest_record_line` at K="1", V1="a",
V2="b" on the empty store. -/
theorem lww_returns_latest_record_line_witness :
    (',' ∉ ("1").toList) ∧ ('\n' ∉ ("1").toList) ∧ ('\n' ∉ ("b").toList) ∧
    (("b").toList.getLast? ≠ some '\r') ∧
    (Get (Set (Set emptyStore (("1").toList ++ ',' :: ("a").toList))
        (("1").toList ++ ',' :: ("b").toList)) false ("1").toList =
      Except.ok (("1").toList ++ ',' :: ("b").toList) ∧
    Get (Set (Set emptyStore (("1").toList ++ ',' :: ("a").toList))
        (("1").toList ++ ',' :: ("b").toList)) true ("1").toList =
      Except.ok (("1").toList ++ ',' :: ("b").toList)) :=
  ⟨by decide, by decide, by decide, by decide,
    lww_returns_latest_record_line emptyStore ("1").toList ("a").toList
      ("b").toList (by decide) (by decide) (by decide) (by decide)⟩

/-- Witness for `index_noindex_parity` on the store produced by setting
"1,foo", at the present key "1". -/
theorem index_noindex_parity_witness :
    (∀ e ∈ [("1,foo").toList], validEntry e) ∧
    Get (runSets emptyStore [("1,foo").toList]) false ("1").toList =
      Get (runSets emptyStore [("1,foo").toList]) true ("1").toList :=
  ⟨by decide,
    index_noindex_parity [("1,foo").toList] (by decide) ("1").toList⟩

/-- Witness for `invalid_entry_rejected` at the spec's concrete entry
"novalueseparator". -/
theorem invalid_entry_rejected_witness :
    (("novalueseparator").toList ≠ []) ∧
    (',' ∉ ("novalueseparator").toList) ∧
    ((setEntry emptyStore ("novalueseparator").toList).2 =
      some DBErr.InvalidEntryFormat ∧
    (setEntry emptyStore ("novalueseparator").toList).1.log =
      emptyStore.log ∧
    (setEntry emptyStore ("novalueseparator").toList).1.log.length =
      emptyStore.log.length ∧
    (setEntry emptyStore ("novalueseparator").toList).1.hashIndex =
      emptyStore.hashIndex ∧
    (setEntry emptyStore ("novalueseparator").toList).1.snapshot =
      emptyStore.snapshot) :=
  ⟨by decide, by decide,
    invalid_entry_rejected emptyStore ("novalueseparator").toList
      (by decide) (by decide)⟩

/-- Witness for `set_records_preappend_offset`: setting "1,foo" on the
empty store records offset 0 for id "1", and a later Set of "2,bar"
leaves that binding alone. -/
theorem set_records_preappend_offset_witness :
    (∀ e2 ∈ [("2,bar").toList], entryId e2 ≠ entryId ("1,foo").toList) ∧
    (idxLookup (Set emptyStore ("1,foo").toList).hashIndex
      (entryId ("1,foo").toList) = some emptyStore.log.length ∧
    (Set emptyStore ("1,foo").toList).log.length =
      emptyStore.log.length + (("1,foo").toList.length + 1) ∧
    idxLookup (runSets (Set emptyStore ("1,foo").toList)
        [("2,bar").toList]).hashIndex (entryId ("1,foo").toList) =
      some emptyStore.log.length) :=
  ⟨by decide,
    set_records_preappend_offset emptyStore ("1,foo").toList
      [("2,bar").toList] (by decide)⟩

/-- Witness for `get_missing_key_not_found`: a freshly created store and
the key "missing-key". -/
theorem get_missing_key_not_found_witness :
    (idxLookup emptyStore.hashIndex ("missing-key").toList = none) ∧
    (∀ l ∈ scanTokens emptyStore.log, entryId l ≠ ("missing-key").toList) ∧
    (Get emptyStore false ("missing-key").toList = Except.ok [] ∧
    Get emptyStore true ("missing-key").toList = Except.ok [] ∧
    (∀ err : DBErr,
      Get emptyStore false ("missing-key").toList ≠ Except.error err) ∧
    (∀ err : DBErr,
      Get emptyStore true ("missing-key").toList ≠ Except.error err)) :=
  ⟨by decide, by decide,
    get_missing_key_not_found emptyStore ("missing-key").toList
      (by decide) (by decide)⟩

/-- Witness for `append_failure_leaves_index_intact`: a store holding
one indexed record "a,b" whose append of "xy" fails midway. -/
theorem append_failure_leaves_index_intact_witness :
    (∀ K off,
      idxLookup (DBState.mk ("a,b\n").toList [(("a").toList, 0)]
        []).hashIndex K = some off →
      off < (DBState.mk ("a,b\n").toList [(("a").toList, 0)] []).log.length) ∧
    ((SetAppendFail (DBState.mk ("a,b\n").toList [(("a").toList, 0)] [])
        ("xy").toList).1.hashIndex =
      (DBState.mk ("a,b\n").toList [(("a").toList, 0)] []).hashIndex ∧
    (SetAppendFail (DBState.mk ("a,b\n").toList [(("a").toList, 0)] [])
        ("xy").toList).1.snapshot =
      (DBState.mk ("a,b\n").toList [(("a").toList, 0)] []).snapshot ∧
    (SetAppendFail (DBState.mk ("a,b\n").toList [(("a").toList, 0)] [])
        ("xy").toList).2 = DBErr.IoError ∧
    ∀ K off,
      idxLookup (SetAppendFail (DBState.mk ("a,b\n").toList
          [(("a").toList, 0)] []) ("xy").toList).1.hashIndex K = some off →
      off < (SetAppendFail (DBState.mk ("a,b\n").toList
          [(("a").toList, 0)] []) ("xy").toList).1.log.length) := by
  have hval : ∀ K off,
      idxLookup (DBState.mk ("a,b\n").toList [(("a").toList, 0)]
        []).hashIndex K = some off →
      off < (DBState.mk ("a,b\n").toList [(("a").toList, 0)]
        []).log.length := by
    intro K off h
    simp only [idxLookup] at h
    by_cases hK : K = ("a").toList
    · rw [if_pos hK] at h
      injection h with h2
      subst h2
      decide
    · rw [if_neg hK] at h
      cases h
  exact ⟨hval,
    append_failure_leaves_index_intact
      (DBState.mk ("a,b\n").toList [(("a").toList, 0)] [])
      ("xy").toList hval⟩

/-- Witness for `indexed_get_trusts_index` on a deliberately diverged
store: the index maps "a" to offset 0 but the log's record there is
"b,x"; the indexed Get returns "b,x" with no error. -/
theorem indexed_get_trusts_index_witness :
    (idxLookup (DBState.mk ("b,x\n").toList [(("a").toList, 0)]
      []).hashIndex (("a").toList) = some 0) ∧
    (Get (DBState.mk ("b,x\n").toList [(("a").toList, 0)] []) false
        (("a").toList) =
      Except.ok (readLineAt (DBState.mk ("b,x\n").toList
        [(("a").toList, 0)] []).log 0) ∧
    ∀ err : DBErr,
      Get (DBState.mk ("b,x\n").toList [(("a").toList, 0)] []) false
        (("a").toList) ≠ Except.error err) ∧
    entryId (readLineAt ("b,x\n").toList 0) ≠ ("a").toList :=
  ⟨by decide,
    indexed_get_trusts_index
      (DBState.mk ("b,x\n").toList [(("a").toList, 0)] [])
      (("a").toList) 0 (by decide),
    by decide⟩

/-- Witness for `index_offsets_point_at_records` after setting "1,foo"
on the empty store, at key "1" and offset 0. -/
theorem index_offsets_point_at_records_witness :
    (∀ e ∈ [("1,foo").toList], validEntry e) ∧
    (idxLookup (runSets emptyStore [("1,foo").toList]).hashIndex
      ("1").toList = some 0) ∧
    (0 < (runSets emptyStore [("1,foo").toList]).log.length ∧
    '\n' ∈ (runSets emptyStore [("1,foo").toList]).log.drop 0 ∧
    (0 = 0 ∨ (runSets emptyStore [("1,foo").toList]).log.drop (0 - 1) =
      '\n' :: (runSets emptyStore [("1,foo").toList]).log.drop 0) ∧
    (lineAt (runSets emptyStore [("1,foo").toList]).log 0).takeWhile
      notComma = ("1").toList) :=
  ⟨by decide, by decide,
    index_offsets_point_at_records [("1,foo").toList] (by decide)
      ("1").toList 0 (by decide)⟩

end LogDB
